import Mathlib

/-!
Verification of the Pull-Time CLI tool (src/main.go) against its
natural-language specification.

The development shallowly embeds the Go functions of `main.go` into Lean:
pure string/number manipulation becomes Lean functions over `List Char`,
`Int` and `Nat`; the concurrent benchmark runner becomes a small-step
transition system over an explicit state, with an interleaving scheduler;
the outcome of the external `docker` subprocess is a parameter (an
arbitrary per-image result), since the process itself is outside the
program.
-/

set_option maxRecDepth 4096

/-- The `Result` struct of main.go.  Go's `omitempty` JSON fields
(`error`, `bytes_downloaded`, `layers`, `cmd_output`) are "absent" exactly
when they hold their zero value (`""` resp. `0`), so the embedding keeps
the zero value itself. -/
structure Result where
  image : String
  registry : String
  success : Bool
  pullTimeMs : Int
  startTime : String
  endTime : String
  error : String
  bytes : Int
  layers : Int
  cmdOutput : String
deriving DecidableEq, Repr

/-- Go zero value of `Result`, used as a `getD` fallback (never actually
selected: every access is guarded by an index bound). -/
def dRes : Result :=
  { image := "", registry := "", success := false, pullTimeMs := 0,
    startTime := "", endTime := "", error := "", bytes := 0, layers := 0,
    cmdOutput := "" }

/-! ## Registry Classifier (`parseRegistry`, `indexOf`, `isOfficialDockerHub`) -/

/-- Helper for `indexOf`: walks the characters accumulating the byte
offset, exactly as Go's `for i, ch := range s` yields the byte index of
each rune. -/
def indexOfAux (c : Char) : List Char → Nat → Int
  | [], _ => -1
  | ch :: rest, i => if ch = c then (i : Int) else indexOfAux c rest (i + ch.utf8Size)

/-- `indexOf` of main.go: byte index of the first occurrence of rune `c`
in `s`, or `-1` if absent. -/
def indexOf (s : String) (c : Char) : Int :=
  indexOfAux c s.toList 0

/-- `isOfficialDockerHub` of main.go: the whole reference contains neither
`.` nor `:`. -/
def isOfficialDockerHub (image : String) : Bool :=
  indexOf image '.' == -1 && indexOf image ':' == -1

/-- Go slice `s[:k]` for a byte count `k` that falls on a rune boundary:
take characters while their encoded bytes fit within `k` (a rune of size
`> k` remaining bytes stops the slice; `k = 0` yields the empty slice
since every rune occupies at least one byte). -/
def takeBytes : List Char → Nat → List Char
  | [], _ => []
  | ch :: rest, k => if ch.utf8Size ≤ k then ch :: takeBytes rest (k - ch.utf8Size) else []

/-- `parseRegistry` of main.go. -/
def parseRegistry (image : String) : String :=
  let idx := indexOf image '/'
  if idx > 0 && !(isOfficialDockerHub image) then
    String.mk (takeBytes image.toList idx.toNat)
  else "docker.io"

/-- Modelled from the amended specification of the Registry Classifier:
the dot/colon test inspects the ENTIRE reference (tag included), not just
the portion before the first `/`.  The classifier returns `"docker.io"`
when there is no `/`, or the first character is `/`, or the whole
reference has neither `.` nor `:`; otherwise the characters before the
first `/`. -/
def specRegistry (image : String) : String :=
  let cs := image.toList
  if cs.contains '/' ∧ cs.head? ≠ some '/' ∧ (cs.contains '.' ∨ cs.contains ':') then
    String.mk (cs.takeWhile (· ≠ '/'))
  else "docker.io"

/-- Byte offset of the first occurrence of `c` (total byte length when
absent). -/
def firstByte (c : Char) : List Char → Nat
  | [] => 0
  | ch :: rest => if ch = c then 0 else ch.utf8Size + firstByte c rest

theorem indexOfAux_eq_neg_one {c : Char} {cs : List Char}
    (h : cs.contains c = false) : ∀ b : Nat, indexOfAux c cs b = -1 := by
  induction cs with
  | nil => intro b; rfl
  | cons ch rest ih =>
    intro b
    simp only [List.contains_cons, Bool.or_eq_false_iff] at h
    have h1 : ¬ ch = c := fun he => (by simpa using h.1 : ¬ c = ch) he.symm
    simp only [indexOfAux, if_neg h1]
    exact ih h.2 _

theorem indexOfAux_eq_firstByte {c : Char} {cs : List Char}
    (h : cs.contains c = true) :
    ∀ b : Nat, indexOfAux c cs b = (b + firstByte c cs : Nat) := by
  induction cs with
  | nil => simp at h
  | cons ch rest ih =>
    intro b
    by_cases hc : ch = c
    · simp [indexOfAux, firstByte, hc]
    · simp only [List.contains_cons, Bool.or_eq_true, beq_iff_eq] at h
      have hrest : rest.contains c = true := by
        rcases h with h | h
        · exact absurd h.symm hc
        · exact h
      simp only [indexOfAux, if_neg hc, firstByte, if_neg hc]
      rw [ih hrest]
      push_cast
      ring

theorem takeBytes_firstByte (c : Char) (cs : List Char) :
    takeBytes cs (firstByte c cs) = cs.takeWhile (· ≠ c) := by
  induction cs with
  | nil => rfl
  | cons ch rest ih =>
    by_cases hc : ch = c
    · simp only [firstByte, if_pos hc, takeBytes]
      rw [if_neg (Nat.not_le.mpr (Char.utf8Size_pos ch))]
      simp [List.takeWhile, hc]
    · simp only [firstByte, if_neg hc, takeBytes,
        if_pos (Nat.le_add_right ch.utf8Size _), Nat.add_sub_cancel_left, ih]
      have : (ch :: rest).takeWhile (· ≠ c) = ch :: rest.takeWhile (· ≠ c) := by
        simp [List.takeWhile, hc]
      rw [this]

theorem indexOf_eq_neg_one_iff (s : String) (c : Char) :
    indexOf s c = -1 ↔ s.toList.contains c = false := by
  constructor
  · intro h
    by_cases hc : s.toList.contains c = true
    · exfalso
      have h2 := indexOfAux_eq_firstByte hc 0
      rw [indexOf] at h
      rw [h] at h2
      omega
    · simpa using hc
  · intro h; exact indexOfAux_eq_neg_one h 0

/-- C3 (amended): the Registry Classifier returns `"docker.io"` when the
reference has no `/`, or the first character is `/`, or the ENTIRE
reference contains neither `.` nor `:`; otherwise it returns exactly the
substring before the first `/`.  The dot/colon test inspects the whole
string — including any tag after the `/` — not just the prefix before the
first `/`. -/
theorem parseRegistry_eq_specRegistry (image : String) :
    parseRegistry image = specRegistry image := by
  unfold parseRegistry specRegistry isOfficialDockerHub
  by_cases hs : image.toList.contains '/' = true
  · have hidx : indexOf image '/' = ((firstByte '/' image.toList : Nat) : Int) := by
      simpa using indexOfAux_eq_firstByte hs 0
    by_cases hh : image.toList.head? = some '/'
    · have hfb : firstByte '/' image.toList = 0 := by
        cases cs : image.toList with
        | nil => rw [cs] at hs; simp at hs
        | cons a t =>
          rw [cs] at hh
          simp only [List.head?_cons, Option.some.injEq] at hh
          simp [firstByte, hh]
      rw [hidx, hfb]
      have hh' : image.data.head? = some '/' := hh
      simp [hh']
    · have hfb : 0 < firstByte '/' image.toList := by
        cases cs : image.toList with
        | nil => rw [cs] at hs; simp at hs
        | cons a t =>
          rw [cs] at hh
          have ha : ¬ a = '/' := by simpa using hh
          have := Char.utf8Size_pos a
          simp only [firstByte, if_neg ha]
          omega
      have hpos : decide (indexOf image '/' > 0) = true := by
        rw [hidx]; simp; exact_mod_cast hfb
      by_cases hoff :
          (indexOf image '.' == -1 && indexOf image ':' == -1) = true
      · simp only [Bool.and_eq_true, beq_iff_eq] at hoff
        have hd : image.toList.contains '.' = false :=
          (indexOf_eq_neg_one_iff image '.').mp hoff.1
        have hc : image.toList.contains ':' = false :=
          (indexOf_eq_neg_one_iff image ':').mp hoff.2
        have hd' : ¬ '.' ∈ image.data := by simpa using hd
        have hc' : ¬ ':' ∈ image.data := by simpa using hc
        simp [hpos, hoff.1, hoff.2, hd', hc']
      · simp only [Bool.and_eq_true, beq_iff_eq, not_and_or] at hoff
        have hdc : image.toList.contains '.' = true ∨ image.toList.contains ':' = true := by
          rcases hoff with h | h
          · left
            by_contra hcon
            exact h ((indexOf_eq_neg_one_iff image '.').mpr (by simpa using hcon))
          · right
            by_contra hcon
            exact h ((indexOf_eq_neg_one_iff image ':').mpr (by simpa using hcon))
        have hcond : (image.toList.contains '/' = true ∧
            ¬ image.toList.head? = some '/' ∧
            (image.toList.contains '.' = true ∨ image.toList.contains ':' = true)) :=
          ⟨hs, hh, hdc⟩
        rw [if_pos hcond]
        have hbool : (decide (indexOf image '/' > 0) &&
            !(indexOf image '.' == -1 && indexOf image ':' == -1)) = true := by
          rcases hdc with h | h
          · have : ¬ indexOf image '.' = -1 := by
              intro he
              rw [(indexOf_eq_neg_one_iff image '.').mp he] at h
              exact Bool.false_ne_true h
            simp [hpos, this]
          · have : ¬ indexOf image ':' = -1 := by
              intro he
              rw [(indexOf_eq_neg_one_iff image ':').mp he] at h
              exact Bool.false_ne_true h
            simp [hpos, this]
        rw [if_pos hbool]
        rw [hidx]
        rw [Int.toNat_natCast]
        rw [takeBytes_firstByte]
  · have hs' : image.toList.contains '/' = false := by simpa using hs
    have hidx : indexOf image '/' = -1 := indexOfAux_eq_neg_one hs' 0
    have hs2 : ¬ '/' ∈ image.data := by simpa using hs'
    simp [hidx, hs2]

/-- C3 (counterexample): the claim says a namespaced official image with a
tag after the `/`, such as `library/ubuntu:latest`, resolves to the
default label `"docker.io"`; the code returns `"library"` because the
colon of the tag makes `isOfficialDockerHub` false. -/
theorem parseRegistry_library_tagged :
    parseRegistry "library/ubuntu:latest" = "library" ∧
    parseRegistry "library/ubuntu:latest" ≠ "docker.io" := by
  refine ⟨by decide, by decide⟩

/-! ## Output Scraper (`splitLines`, `parseDockerOutput`)

The three scans of `parseDockerOutput` call `fmt.Sscanf`.  Go's `Sscanf`
returns the number of operands successfully ASSIGNED:

* `fmt.Sscanf(line, "Downloaded newer image for %*s")` — the `*` flag is
  not a Go scan verb; the call stops with a bad-verb/too-few-operands
  error before assigning anything, so `n = 0` for every line;
* `fmt.Sscanf(line, "%dB", &bytes)` — `n == 1` exactly when the `%d`
  conversion succeeds (optional leading whitespace, an optional sign and
  at least one decimal digit).  A mismatch of the trailing literal `B`
  happens only after the operand has been assigned, so `n` is `1` even
  without the `B`;
* `fmt.Sscanf(line, "Pulling fs layer")` — the format has no verbs and
  the call has no operand arguments, so `n = 0` for every line.
-/

/-- Go `strings.Split(s, "\n")`: split around each newline, keeping empty
pieces (the empty string yields `[""]`). -/
def splitLinesAux : List Char → List Char → List String
  | [], acc => [String.mk acc.reverse]
  | c :: rest, acc =>
    if c = '\n' then String.mk acc.reverse :: splitLinesAux rest []
    else splitLinesAux rest (c :: acc)

/-- `splitLines` of main.go. -/
def splitLines (s : String) : List String := splitLinesAux s.toList []

/-- Operand count of `fmt.Sscanf(line, "Downloaded newer image for %*s")`:
always 0 (see the section comment). -/
def sscanfDownloadedNewer (_line : String) : Nat := 0

/-- Operand count of `fmt.Sscanf(line, "Pulling fs layer")`: always 0
(no operand arguments; see the section comment). -/
def sscanfPullingFsLayer (_line : String) : Nat := 0

/-- Decimal digit characters to a natural number, most significant
first. -/
def digitsToNat (ds : List Char) : Nat :=
  ds.foldl (fun acc c => acc * 10 + (c.toNat - '0'.toNat)) 0

/-- The value assigned by `fmt.Sscanf(line, "%dB", &bytes)` when it
returns `n == 1`, and `none` when it returns `n == 0`: skip leading
whitespace, then an optional sign and at least one decimal digit (the
trailing `B` of the format is checked only after the assignment, so it
does not influence `n == 1`; see the section comment). -/
def sscanfIntB (line : String) : Option Int :=
  let cs := line.toList.dropWhile (fun c => c.isWhitespace)
  let signRest : Int × List Char :=
    match cs with
    | '-' :: rest => (-1, rest)
    | '+' :: rest => (1, rest)
    | _ => (1, cs)
  let ds := signRest.2.takeWhile (fun c => c.isDigit)
  if ds.isEmpty then none else some (signRest.1 * (digitsToNat ds : Int))

/-- The per-line loop of `parseDockerOutput`, threading the mutable
`layers` counter and the `Result` being updated. -/
def parseDockerOutputLoop : List String → Int → Result → Result × Int
  | [], layers, res => (res, layers)
  | line :: rest, layers, res =>
    if sscanfDownloadedNewer line > 0 then
      parseDockerOutputLoop rest layers res
    else
      let res' := match sscanfIntB line with
        | some b => { res with bytes := b }
        | none => res
      let layers' := if sscanfPullingFsLayer line > 0 then layers + 1 else layers
      parseDockerOutputLoop rest layers' res'

/-- `parseDockerOutput` of main.go: scrape the command output, then
populate `layers` only when the counter is positive. -/
def parseDockerOutput (res : Result) (output : String) : Result :=
  let rl := parseDockerOutputLoop (splitLines output) 0 res
  if rl.2 > 0 then { rl.1 with layers := rl.2 } else rl.1

theorem parseDockerOutputLoop_success (lines : List String) :
    ∀ (layers : Int) (res : Result),
      (parseDockerOutputLoop lines layers res).1.success = res.success := by
  induction lines with
  | nil => intro layers res; rfl
  | cons line rest ih =>
    intro layers res
    simp only [parseDockerOutputLoop]
    split
    · exact ih _ _
    · cases h : sscanfIntB line <;> simp [h, ih]

theorem parseDockerOutputLoop_error (lines : List String) :
    ∀ (layers : Int) (res : Result),
      (parseDockerOutputLoop lines layers res).1.error = res.error := by
  induction lines with
  | nil => intro layers res; rfl
  | cons line rest ih =>
    intro layers res
    simp only [parseDockerOutputLoop]
    split
    · exact ih _ _
    · cases h : sscanfIntB line <;> simp [h, ih]

theorem parseDockerOutput_success (res : Result) (out : String) :
    (parseDockerOutput res out).success = res.success := by
  unfold parseDockerOutput
  dsimp only
  split <;> simp [parseDockerOutputLoop_success]

theorem parseDockerOutput_error (res : Result) (out : String) :
    (parseDockerOutput res out).error = res.error := by
  unfold parseDockerOutput
  dsimp only
  split <;> simp [parseDockerOutputLoop_error]

/-! ## Pull Operation result construction (benchmark goroutine body,
main.go lines 62–86) -/

/-- The `Result` built by the benchmark goroutine.  `cmdErr` is the error
of `cmd.CombinedOutput()` (its message as text, `none` when the process
exited successfully).  The goroutine reads `ctx.Err()` at two distinct
moments and each read is a separate parameter:

* `ctxErr1` — the read inside the `Success` computation
  (`err == nil && ctx.Err() == nil`, main.go line 73);
* `ctxErr2` — the read in the overwrite check and assignment
  (`if ctx.Err() != nil { res.Error = ctx.Err().Error() }`, main.go
  lines 82–83; those two calls observe the same value because a
  context's error is write-once and the deferred `cancel()` has not yet
  run, so one parameter stands for both).

A Go context's error is monotone — `nil` until the deadline fires, then
permanently `context.DeadlineExceeded` — so the reachable read pairs are
`(none, none)`, `(some e, some e)`, and `(none, some e)` when the
deadline expires between the two reads. -/
def benchResult (imageURL : String) (cmdErr ctxErr1 ctxErr2 : Option String)
    (elapsedMs : Int) (startTime endTime : String) (output : String) : Result :=
  let res : Result :=
    { image := imageURL
      registry := parseRegistry imageURL
      success := cmdErr == none && ctxErr1 == none
      pullTimeMs := elapsedMs
      startTime := startTime
      endTime := endTime
      error := ""
      bytes := 0
      layers := 0
      cmdOutput := output }
  let res1 := match cmdErr with
    | some e => { res with error := e }
    | none => res
  let res2 := match ctxErr2 with
    | some e => { res1 with error := e }
    | none => res1
  parseDockerOutput res2 output

/-- C8 (code evaluation): the per-pull deadline can expire BETWEEN the
`Success` computation (line 73) and the error-overwrite check (line 82).
With a cleanly exited command (`cmdErr = none`), `ctx.Err()` still `nil`
at line 73 but `DeadlineExceeded` by line 82 — a read pair the monotone
write-once context permits — the code produces `success = true` together
with `error = "context deadline exceeded"`, violating the claimed
invariant that `success = true` implies an empty `error` field. -/
theorem benchResult_race_success_with_error :
    (benchResult "ubuntu:latest" none none (some "context deadline exceeded")
        100 "t0" "t1" "").success = true ∧
    (benchResult "ubuntu:latest" none none (some "context deadline exceeded")
        100 "t0" "t1" "").error = "context deadline exceeded" ∧
    (benchResult "ubuntu:latest" none none (some "context deadline exceeded")
        100 "t0" "t1" "").error ≠ "" := by
  refine ⟨by decide, by decide, by decide⟩

/-- C10: when BOTH the external command returned an error and the
per-pull context deadline expired before the line-82 check, the `error`
field holds the context's timeout error text — the `ctx.Err()`
assignment comes after, and overwrites, the process-exit error
assignment (whatever the earlier line-73 read observed). -/
theorem benchResult_ctx_error_wins (imageURL e c : String) (ctxErr1 : Option String)
    (elapsedMs : Int) (st et out : String) :
    (benchResult imageURL (some e) ctxErr1 (some c) elapsedMs st et out).error = c := by
  simp [benchResult, parseDockerOutput_error]

/-- C4 (code evaluation): three `"Pulling fs layer"` lines do NOT produce
`layerCount = 3` — the layer counter never increments because
`fmt.Sscanf(line, "Pulling fs layer")` always reports 0 assigned
operands, so `layers` stays absent (0); the byte scrape does work
(`"1234B"` gives 1234), and input with neither pattern leaves both
fields absent. -/
theorem parseDockerOutput_layer_counter_dead :
    (parseDockerOutput dRes
        "Pulling fs layer\nPulling fs layer\nPulling fs layer").layers = 0 ∧
    (parseDockerOutput dRes "1234B").bytes = 1234 ∧
    (parseDockerOutput dRes "status: downloading").bytes = 0 ∧
    (parseDockerOutput dRes "status: downloading").layers = 0 := by
  refine ⟨by decide, by decide, by decide, by decide⟩

/-! ## Summary Aggregator (`printSummary`) -/

/-- The values printed by `printSummary`.  The Go code prints
`float64(sum)/float64(success)` for the average; the embedding exposes
the exact `sum` and `succeeded` instead of baking in a division, so that
the unguarded zero divisor stays visible. -/
structure Summary where
  total : Nat
  succeeded : Nat
  minMs : Int
  maxMs : Int
  sumMs : Int
deriving DecidableEq, Repr

/-- The `for i, r := range results` loop of `printSummary`, threading the
index `i` and the accumulators `success`, `min`, `max`, `sum` (all of
which start at their Go zero values). -/
def printSummaryLoop : List Result → Nat → Nat → Int → Int → Int → Nat × Int × Int × Int
  | [], _, success, mn, mx, sm => (success, mn, mx, sm)
  | r :: rest, i, success, mn, mx, sm =>
    if r.success then
      printSummaryLoop rest (i + 1) (success + 1)
        (if i = 0 ∨ r.pullTimeMs < mn then r.pullTimeMs else mn)
        (if r.pullTimeMs > mx then r.pullTimeMs else mx)
        (sm + r.pullTimeMs)
    else
      printSummaryLoop rest (i + 1) success mn mx sm

/-- `printSummary` of main.go (the numbers it prints). -/
def printSummary (results : List Result) : Summary :=
  let acc := printSummaryLoop results 0 0 0 0 0
  { total := results.length, succeeded := acc.1, minMs := acc.2.1,
    maxMs := acc.2.2.1, sumMs := acc.2.2.2 }

/-- The average as Go computes it, `float64(sum)/float64(success)`,
modelled over `ℚ` (exact for the values the claims use).  Note `ℚ`
division by zero is `0` by convention while the Go float division by zero
succeeded-count yields NaN, so statements about `avgMs` are only faithful
under `succeeded ≠ 0`. -/
def avgMs (s : Summary) : ℚ := (s.sumMs : ℚ) / (s.succeeded : ℚ)

theorem foldl_min_mem (ts : List Int) : ∀ a : Int, ts.foldl min a ∈ a :: ts := by
  induction ts with
  | nil => intro a; simp
  | cons t ts ih =>
    intro a
    have h := ih (min a t)
    rw [List.foldl_cons]
    rcases List.mem_cons.mp h with h | h
    · rw [h]
      rcases min_choice a t with hm | hm <;> rw [hm] <;> simp
    · simp [List.mem_cons, h]

theorem foldl_min_le (ts : List Int) :
    ∀ a : Int, ts.foldl min a ≤ a ∧ ∀ t ∈ ts, ts.foldl min a ≤ t := by
  induction ts with
  | nil => intro a; simp
  | cons t ts ih =>
    intro a
    obtain ⟨h1, h2⟩ := ih (min a t)
    refine ⟨le_trans h1 (min_le_left a t), ?_⟩
    intro u hu
    rcases List.mem_cons.mp hu with hu | hu
    · subst hu; exact le_trans h1 (min_le_right a u)
    · exact h2 u hu

theorem foldl_max_mem (ts : List Int) : ∀ a : Int, ts.foldl max a ∈ a :: ts := by
  induction ts with
  | nil => intro a; simp
  | cons t ts ih =>
    intro a
    have h := ih (max a t)
    rw [List.foldl_cons]
    rcases List.mem_cons.mp h with h | h
    · rw [h]
      rcases max_choice a t with hm | hm <;> rw [hm] <;> simp
    · simp [List.mem_cons, h]

theorem foldl_max_ge (ts : List Int) :
    ∀ a : Int, a ≤ ts.foldl max a ∧ ∀ t ∈ ts, t ≤ ts.foldl max a := by
  induction ts with
  | nil => intro a; simp
  | cons t ts ih =>
    intro a
    obtain ⟨h1, h2⟩ := ih (max a t)
    refine ⟨le_trans (le_max_left a t) h1, ?_⟩
    intro u hu
    rcases List.mem_cons.mp hu with hu | hu
    · subst hu; exact le_trans (le_max_right a u) h1
    · exact h2 u hu

/-- Characterisation of the loop from index 1 on: once `i ≠ 0`, the
`i == 0` disjunct is dead and the accumulators fold `min`/`max`/`+` over
the successful pull times. -/
theorem printSummaryLoop_spec (rest : List Result) :
    ∀ (i success : Nat) (mn mx sm : Int), i ≠ 0 →
      printSummaryLoop rest i success mn mx sm =
        (success + ((rest.filter (fun r => r.success)).map (fun r => r.pullTimeMs)).length,
         ((rest.filter (fun r => r.success)).map (fun r => r.pullTimeMs)).foldl min mn,
         ((rest.filter (fun r => r.success)).map (fun r => r.pullTimeMs)).foldl max mx,
         sm + ((rest.filter (fun r => r.success)).map (fun r => r.pullTimeMs)).sum) := by
  induction rest with
  | nil => intro i success mn mx sm hi; simp [printSummaryLoop]
  | cons r rest ih =>
    intro i success mn mx sm hi
    by_cases hr : r.success
    · have hmin : (if i = 0 ∨ r.pullTimeMs < mn then r.pullTimeMs else mn)
          = min mn r.pullTimeMs := by
        rcases lt_or_ge r.pullTimeMs mn with h | h
        · simp [hi, h, min_def]
          omega
        · have : ¬ r.pullTimeMs < mn := not_lt.mpr h
          simp [hi, this, min_def]
          omega
      have hmax : (if r.pullTimeMs > mx then r.pullTimeMs else mx)
          = max mx r.pullTimeMs := by
        rcases lt_or_ge mx r.pullTimeMs with h | h
        · simp [h, max_def]
          omega
        · have : ¬ mx < r.pullTimeMs := not_lt.mpr h
          simp [this, max_def]
          omega
      simp only [printSummaryLoop, if_pos hr, hmin, hmax]
      rw [ih (i + 1) (success + 1) (min mn r.pullTimeMs) (max mx r.pullTimeMs)
          (sm + r.pullTimeMs) (Nat.succ_ne_zero i)]
      simp [hr, List.filter_cons, Nat.add_assoc, Int.add_assoc, Nat.add_comm 1]
    · simp only [printSummaryLoop, if_neg hr]
      rw [ih (i + 1) success mn mx sm (Nat.succ_ne_zero i)]
      simp [hr, List.filter_cons]

/-- The pull times of the successful results, in sequence order (the
quantity the spec's min/max/avg range over). -/
def succTimes (results : List Result) : List Int :=
  (results.filter (fun r => r.success)).map (fun r => r.pullTimeMs)

/-- C6 (amended): when the FIRST result of the sequence is successful
(and all pull times are non-negative, as wall-clock elapsed times are),
`printSummary`'s min and max are the minimum and maximum `pullTimeMs`
over successful results only, `succeeded` counts them, `sum` adds them,
and the printed average is their arithmetic mean; in particular the
claim's example `[{success,100}, {success,300}, {fail}]` yields
total=3, succeeded=2, min=100, max=300, avg=200.  (The `i == 0` test in
the min update refers to the index in the WHOLE slice, so the min is
computed correctly only when index 0 holds a successful result — see the
counterexample with the failure first.) -/
theorem printSummary_first_success (r0 : Result) (rest : List Result)
    (h0 : r0.success = true)
    (hnn : ∀ r ∈ r0 :: rest, 0 ≤ r.pullTimeMs) :
    (printSummary (r0 :: rest)).total = rest.length + 1 ∧
    (printSummary (r0 :: rest)).succeeded = (succTimes (r0 :: rest)).length ∧
    (printSummary (r0 :: rest)).minMs ∈ succTimes (r0 :: rest) ∧
    (∀ t ∈ succTimes (r0 :: rest), (printSummary (r0 :: rest)).minMs ≤ t) ∧
    (printSummary (r0 :: rest)).maxMs ∈ succTimes (r0 :: rest) ∧
    (∀ t ∈ succTimes (r0 :: rest), t ≤ (printSummary (r0 :: rest)).maxMs) ∧
    (printSummary (r0 :: rest)).sumMs = (succTimes (r0 :: rest)).sum ∧
    avgMs (printSummary (r0 :: rest)) =
      ((succTimes (r0 :: rest)).sum : ℚ) / ((succTimes (r0 :: rest)).length : ℚ) := by
  have ht0 : 0 ≤ r0.pullTimeMs := hnn r0 (List.mem_cons_self r0 rest)
  have hmx : (if r0.pullTimeMs > 0 then r0.pullTimeMs else 0) = r0.pullTimeMs := by
    rcases lt_or_eq_of_le ht0 with h | h
    · rw [if_pos h]
    · rw [← h]; simp
  have hacc : printSummaryLoop (r0 :: rest) 0 0 0 0 0 =
      (1 + (succTimes rest).length,
       (succTimes rest).foldl min r0.pullTimeMs,
       (succTimes rest).foldl max r0.pullTimeMs,
       r0.pullTimeMs + (succTimes rest).sum) := by
    simp only [printSummaryLoop, if_pos h0]
    rw [printSummaryLoop_spec rest 1 1 _ _ _ one_ne_zero]
    simp [succTimes, hmx]
  have hts : succTimes (r0 :: rest) = r0.pullTimeMs :: succTimes rest := by
    simp [succTimes, List.filter_cons, h0]
  have htot : (printSummary (r0 :: rest)).total = rest.length + 1 := by
    simp [printSummary]
  have hsucc : (printSummary (r0 :: rest)).succeeded = (succTimes (r0 :: rest)).length := by
    simp only [printSummary, hacc, hts, List.length_cons]
    omega
  have hmin : (printSummary (r0 :: rest)).minMs
      = (succTimes rest).foldl min r0.pullTimeMs := by
    simp [printSummary, hacc]
  have hmax : (printSummary (r0 :: rest)).maxMs
      = (succTimes rest).foldl max r0.pullTimeMs := by
    simp [printSummary, hacc]
  have hsum : (printSummary (r0 :: rest)).sumMs = (succTimes (r0 :: rest)).sum := by
    simp [printSummary, hacc, hts]
  obtain ⟨hminle, hminall⟩ := foldl_min_le (succTimes rest) r0.pullTimeMs
  have hminmem := foldl_min_mem (succTimes rest) r0.pullTimeMs
  obtain ⟨hmaxge, hmaxall⟩ := foldl_max_ge (succTimes rest) r0.pullTimeMs
  have hmaxmem := foldl_max_mem (succTimes rest) r0.pullTimeMs
  refine ⟨htot, hsucc, ?_, ?_, ?_, ?_, hsum, ?_⟩
  · rw [hmin, hts]; exact hminmem
  · intro t ht
    rw [hts] at ht
    rw [hmin]
    rcases List.mem_cons.mp ht with h | h
    · exact h ▸ hminle
    · exact hminall t h
  · rw [hmax, hts]; exact hmaxmem
  · intro t ht
    rw [hts] at ht
    rw [hmax]
    rcases List.mem_cons.mp ht with h | h
    · exact h ▸ hmaxge
    · exact hmaxall t h
  · rw [avgMs, hsucc, hsum]

/-- A successful 100 ms result (zero values elsewhere). -/
def rSucc100 : Result := { dRes with image := "img100", success := true, pullTimeMs := 100 }

/-- A successful 300 ms result (zero values elsewhere). -/
def rSucc300 : Result := { dRes with image := "img300", success := true, pullTimeMs := 300 }

/-- A failed result (zero values elsewhere). -/
def rFail : Result := { dRes with image := "imgFail", success := false, error := "pull failed" }

/-- C6 witness: the claim's example, with the failed result last, yields
total=3, succeeded=2, min=100, max=300, sum=400 and average 200. -/
theorem printSummary_first_success_witness :
    (printSummary [rSucc100, rSucc300, rFail]).total = 3 ∧
    (printSummary [rSucc100, rSucc300, rFail]).succeeded = 2 ∧
    (printSummary [rSucc100, rSucc300, rFail]).minMs = 100 ∧
    (printSummary [rSucc100, rSucc300, rFail]).maxMs = 300 ∧
    (printSummary [rSucc100, rSucc300, rFail]).sumMs = 400 ∧
    avgMs (printSummary [rSucc100, rSucc300, rFail]) = 200 := by
  have h := printSummary_first_success rSucc100 [rSucc300, rFail]
    (by decide) (by decide)
  obtain ⟨-, -, hminmem, hminle, hmaxmem, hmaxge, -, -⟩ := h
  have hst : succTimes [rSucc100, rSucc300, rFail] = [100, 300] := by decide
  rw [hst] at hminmem hminle hmaxmem hmaxge
  refine ⟨by decide, by decide, ?_, ?_, by decide, ?_⟩
  · have h1 := hminle 100 (by simp)
    rcases List.mem_cons.mp hminmem with h | h
    · exact h
    · simp only [List.mem_cons, List.not_mem_nil, or_false] at h
      omega
  · have h1 := hmaxge 300 (by simp)
    rcases List.mem_cons.mp hmaxmem with h | h
    · omega
    · simp only [List.mem_cons, List.not_mem_nil, or_false] at h
      exact h
  · have hs1 : (printSummary [rSucc100, rSucc300, rFail]).sumMs = 400 := by decide
    have hs2 : (printSummary [rSucc100, rSucc300, rFail]).succeeded = 2 := by decide
    rw [avgMs, hs1, hs2]
    norm_num

/-- C6 (counterexample): with the failed result FIRST, the code's min is
0, not the minimum (100) over the successful results — the `i == 0` test
that seeds the min refers to the index in the whole slice, not to the
first successful result. -/
theorem printSummary_fail_first_min_wrong :
    (printSummary [rFail, rSucc100, rSucc300]).minMs = 0 ∧
    (printSummary [rFail, rSucc100, rSucc300]).minMs ≠ 100 := by
  refine ⟨by decide, by decide⟩

/-- C7 (code evaluation): with zero successful results the divisor of the
final `float64(sum)/float64(success)` is 0 — the division is unguarded
(Go computes 0/0 = NaN and prints it); no explicit substitute value is
produced. -/
theorem printSummary_zero_success_divisor :
    (printSummary [rFail]).succeeded = 0 ∧ (printSummary [rFail]).total = 1 := by
  refine ⟨by decide, by decide⟩

/-! ## Warmup mode (`warmupCmd`)

The warmup loop's externally visible actions, in program order: a cache
removal (`docker rmi -f`, fire-and-forget), a pull (`docker pull`), or
the inter-iteration sleep.  The outcome of each pull is a parameter
`po : Nat → Int × Option String` giving elapsed milliseconds and the
error (if any) of iteration `i`. -/
inductive WarmupAction where
  | removeImage (image : String)
  | pullImage (image : String)
  | sleepDelay (ms : Nat)
deriving DecidableEq, Repr

/-- One record of warmup's JSON output. -/
structure WarmupRecord where
  iteration : Nat
  pullTimeMs : Int
  cacheState : String
  success : Bool
  error : String
deriving DecidableEq, Repr

/-- The body of warmup's `for i := 1; i <= iterations; i++` loop:
remove before the first iteration only, pull and record, then remove and
sleep when further iterations remain. -/
def warmupStep (image : String) (iterations delay : Nat)
    (po : Nat → Int × Option String)
    (acc : List WarmupAction × List WarmupRecord) (i : Nat) :
    List WarmupAction × List WarmupRecord :=
  let trace := if i = 1 then acc.1 ++ [WarmupAction.removeImage image] else acc.1
  let trace := trace ++ [WarmupAction.pullImage image]
  let cacheState := if 1 < i then "warm" else "cold"
  let rcd : WarmupRecord :=
    { iteration := i
      pullTimeMs := (po i).1
      cacheState := cacheState
      success := (po i).2 == none
      error := match (po i).2 with
        | some e => e
        | none => "" }
  let records := acc.2 ++ [rcd]
  let trace := if i < iterations then
      trace ++ [WarmupAction.removeImage image, WarmupAction.sleepDelay delay]
    else trace
  (trace, records)

/-- `warmupCmd` of main.go: iterate `i = 1, …, iterations`, producing the
action trace and the emitted records. -/
def warmupCmd (image : String) (iterations delay : Nat)
    (po : Nat → Int × Option String) :
    List WarmupAction × List WarmupRecord :=
  (List.range' 1 iterations).foldl (warmupStep image iterations delay po) ([], [])

/-- Count of cache-removal attempts in a warmup trace. -/
def removalCount (trace : List WarmupAction) : Nat :=
  trace.countP (fun a => match a with
    | WarmupAction.removeImage _ => true
    | _ => false)

/-- C9 (amended): a warmup run with `iterations = 3` labels iteration 1
`"cold"` and iterations 2 and 3 `"warm"`, and performs exactly THREE
cache-removal attempts — before iteration 1, between iterations 1 and 2,
and between iterations 2 and 3 — with none after the final iteration
(the trace ends with the final pull). -/
theorem warmupCmd_three_iterations (image : String) (delay : Nat)
    (po : Nat → Int × Option String) :
    (warmupCmd image 3 delay po).1 =
      [WarmupAction.removeImage image, WarmupAction.pullImage image,
       WarmupAction.removeImage image, WarmupAction.sleepDelay delay,
       WarmupAction.pullImage image,
       WarmupAction.removeImage image, WarmupAction.sleepDelay delay,
       WarmupAction.pullImage image] ∧
    removalCount (warmupCmd image 3 delay po).1 = 3 ∧
    ((warmupCmd image 3 delay po).2.map (fun r => (r.iteration, r.cacheState))) =
      [(1, "cold"), (2, "warm"), (3, "warm")] := by
  refine ⟨?_, ?_, ?_⟩ <;>
    simp [warmupCmd, warmupStep, removalCount, List.range',
      List.countP_cons, List.countP_nil]

/-- C9 (counterexample): the claim's count of exactly 2 cache-removal
attempts is wrong — the code removes the cache three times for
`iterations = 3` (before iteration 1 via the `i == 1` branch, and after
each non-final iteration via the `i < iterations` branch). -/
theorem warmupCmd_three_removals_not_two :
    removalCount (warmupCmd "ubuntu:latest" 3 1000 (fun _ => (5, none))).1 = 3 ∧
    removalCount (warmupCmd "ubuntu:latest" 3 1000 (fun _ => (5, none))).1 ≠ 2 := by
  refine ⟨by decide, by decide⟩

/-! ## Concurrent Benchmark Runner (`benchmarkCmd`, main.go lines 52–93)

Small-step interleaving model.  The Go loop performs `wg.Add(1)` and
spawns one goroutine per image BEFORE `wg.Wait()`; since spawning commits
no shared state, the model starts from the state in which all `n`
workers exist at their first instruction and `wg = n` (every
interleaving of the real program is an interleaving of this model).
Worker `i`'s program, in order:

* `sem <- struct{}{}` — blocks until fewer than `concurrency` slots are
  taken (`sem` is a channel with capacity `concurrency`);
* run the pull and build its `Result` (the per-worker outcome is the
  parameter `rs`, one arbitrary `Result` per image — success or failure);
* `resultsMu.Lock(); results = append(results, res); resultsMu.Unlock()`
  — the mutex makes the append atomic, so it is one step;
* `<-sem` — release the slot;
* the deferred `wg.Done()` (runs last, after the releases).

`wg.Wait()` returns — the `ret` step — only when the counter is zero. -/

/-- Program counter of one benchmark worker. -/
inductive Pc where
  | start
  | pulling
  | appended
  | released
  | done
deriving DecidableEq, Repr

/-- The worker holds a semaphore slot from acquisition until `<-sem`. -/
def isHolder : Pc → Bool
  | Pc.pulling => true
  | Pc.appended => true
  | _ => false

/-- The worker is currently executing the pull operation. -/
def isPulling : Pc → Bool
  | Pc.pulling => true
  | _ => false

/-- The worker has already appended its result. -/
def isPast : Pc → Bool
  | Pc.appended => true
  | Pc.released => true
  | Pc.done => true
  | _ => false

/-- The worker has not yet executed its deferred `wg.Done()`. -/
def notDone : Pc → Bool
  | Pc.done => false
  | _ => true

/-- Shared state of one `benchmark` invocation: worker program counters
(index `i` ↔ image `i`), the shared `results` slice, the `WaitGroup`
counter, and whether `wg.Wait()` has returned. -/
structure BState where
  pcs : List Pc
  results : List Result
  wg : Nat
  returned : Bool
deriving DecidableEq, Repr

/-- State at `wg.Wait()`: all workers dispatched at their first
instruction, nothing appended, `wg = n`. -/
def initState (rs : List Result) : BState :=
  { pcs := List.replicate rs.length Pc.start, results := [],
    wg := rs.length, returned := false }

/-- One interleaving step of the benchmark runner with gate capacity
`conc`; `rs` lists the per-image pull results (worker `i` produces
`rs[i]`, arbitrary — the model does not care whether it succeeded). -/
inductive BStep (conc : Nat) (rs : List Result) : BState → BState → Prop where
  | acquire (s : BState) (i : Nat)
      (hpc : s.pcs[i]? = some Pc.start)
      (hsem : s.pcs.countP isHolder < conc) :
      BStep conc rs s ⟨s.pcs.set i Pc.pulling, s.results, s.wg, s.returned⟩
  | finish (s : BState) (i : Nat)
      (hpc : s.pcs[i]? = some Pc.pulling) :
      BStep conc rs s
        ⟨s.pcs.set i Pc.appended, s.results ++ [rs.getD i dRes], s.wg, s.returned⟩
  | release (s : BState) (i : Nat)
      (hpc : s.pcs[i]? = some Pc.appended) :
      BStep conc rs s ⟨s.pcs.set i Pc.released, s.results, s.wg, s.returned⟩
  | wgDone (s : BState) (i : Nat)
      (hpc : s.pcs[i]? = some Pc.released) :
      BStep conc rs s ⟨s.pcs.set i Pc.done, s.results, s.wg - 1, s.returned⟩
  | ret (s : BState)
      (hwg : s.wg = 0) (hret : s.returned = false) :
      BStep conc rs s ⟨s.pcs, s.results, s.wg, true⟩

/-- States reachable from the all-dispatched initial state. -/
inductive Reachable (conc : Nat) (rs : List Result) : BState → Prop where
  | init : Reachable conc rs (initState rs)
  | step {s s' : BState} : Reachable conc rs s → BStep conc rs s s' →
      Reachable conc rs s'

theorem countP_set (p : Pc → Bool) (l : List Pc) :
    ∀ (i : Nat) (old v : Pc), l[i]? = some old →
      (l.set i v).countP p + (if p old then 1 else 0)
        = l.countP p + (if p v then 1 else 0) := by
  induction l with
  | nil => intro i old v h; simp at h
  | cons a t ih =>
    intro i old v h
    cases i with
    | zero =>
      simp only [List.getElem?_cons_zero, Option.some.injEq] at h
      subst h
      simp only [List.set_cons_zero, List.countP_cons]
      omega
    | succ j =>
      simp only [List.getElem?_cons_succ] at h
      simp only [List.set_cons_succ, List.countP_cons]
      have := ih j old v h
      omega

theorem countP_pos_of_mem (p : Pc → Bool) (l : List Pc) (i : Nat) (a : Pc)
    (h : l[i]? = some a) (hp : p a = true) : 0 < l.countP p := by
  induction l generalizing i with
  | nil => simp at h
  | cons b t ih =>
    cases i with
    | zero =>
      simp only [List.getElem?_cons_zero, Option.some.injEq] at h
      subst h
      rw [List.countP_cons, if_pos hp]
      omega
    | succ j =>
      simp only [List.getElem?_cons_succ] at h
      have := ih j h
      simp only [List.countP_cons]
      omega

theorem countP_replicate (p : Pc → Bool) (n : Nat) (a : Pc) :
    (List.replicate n a).countP p = if p a then n else 0 := by
  induction n with
  | zero => simp
  | succ m ih =>
    simp only [List.replicate_succ, List.countP_cons, ih]
    by_cases h : p a = true
    · simp only [if_pos h]
    · simp only [if_neg h]

/-- The results owned so far by workers that are past their append, in
worker order: `rs[i]` for each `i` whose pc satisfies `isPast`. -/
def pastResults : List Pc → List Result → List Result
  | p :: ps, r :: rl => (if isPast p then [r] else []) ++ pastResults ps rl
  | _, _ => []

theorem pastResults_set_eq (ps : List Pc) :
    ∀ (rl : List Result) (i : Nat) (old v : Pc), ps[i]? = some old →
      isPast old = isPast v →
      pastResults (ps.set i v) rl = pastResults ps rl := by
  induction ps with
  | nil => intro rl i old v h _; simp at h
  | cons a t ih =>
    intro rl i old v h heq
    cases rl with
    | nil =>
      cases i with
      | zero => rfl
      | succ j => rfl
    | cons r rt =>
      cases i with
      | zero =>
        simp only [List.getElem?_cons_zero, Option.some.injEq] at h
        subst h
        simp only [List.set_cons_zero, pastResults, heq]
      | succ j =>
        simp only [List.getElem?_cons_succ] at h
        simp only [List.set_cons_succ, pastResults, ih rt j old v h heq]

theorem pastResults_set_insert (ps : List Pc) :
    ∀ (rl : List Result) (i : Nat) (old v : Pc), ps[i]? = some old →
      isPast old = false → isPast v = true → ps.length = rl.length →
      (pastResults (ps.set i v) rl).Perm (rl.getD i dRes :: pastResults ps rl) := by
  induction ps with
  | nil => intro rl i old v h _ _ _; simp at h
  | cons a t ih =>
    intro rl i old v h hold hv hlen
    cases rl with
    | nil => simp at hlen
    | cons r rt =>
      simp only [List.length_cons, Nat.succ.injEq] at hlen
      cases i with
      | zero =>
        simp only [List.getElem?_cons_zero, Option.some.injEq] at h
        subst h
        simp only [List.set_cons_zero, pastResults, hold, hv, List.getD_cons_zero]
        simp
      | succ j =>
        simp only [List.getElem?_cons_succ] at h
        simp only [List.set_cons_succ, pastResults, List.getD_cons_succ]
        have hperm := ih rt j old v h hold hv hlen
        by_cases ha : isPast a = true
        · rw [if_pos ha]
          exact (hperm.append_left [r]).trans
            (List.Perm.swap (rt.getD j dRes) r (pastResults t rt))
        · rw [if_neg ha]
          simpa using hperm

theorem pastResults_all_past (ps : List Pc) :
    ∀ rl : List Result, (∀ p ∈ ps, isPast p = true) → ps.length = rl.length →
      pastResults ps rl = rl := by
  induction ps with
  | nil =>
    intro rl _ hlen
    cases rl with
    | nil => rfl
    | cons r rt => simp at hlen
  | cons a t ih =>
    intro rl hall hlen
    cases rl with
    | nil => simp at hlen
    | cons r rt =>
      simp only [List.length_cons, Nat.succ.injEq] at hlen
      have ha : isPast a = true := hall a (List.mem_cons_self a t)
      have ht := ih rt (fun p hp => hall p (List.mem_cons_of_mem a hp)) hlen
      simp only [pastResults]
      rw [if_pos ha, ht]
      rfl

theorem pastResults_replicate_start (n : Nat) :
    ∀ rl : List Result, pastResults (List.replicate n Pc.start) rl = [] := by
  induction n with
  | zero => intro rl; cases rl <;> rfl
  | succ m ih =>
    intro rl
    cases rl with
    | nil => rfl
    | cons r rt => simp [List.replicate_succ, pastResults, isPast, ih]

/-- Global invariant of the benchmark runner: worker count matches the
image count, at most `conc` workers hold gate slots, the `WaitGroup`
counter equals the number of workers that have not run `wg.Done()`, the
shared slice holds (a permutation of) exactly the results of the workers
past their append, and a returned barrier implies a zero counter. -/
def BInv (conc : Nat) (rs : List Result) (s : BState) : Prop :=
  s.pcs.length = rs.length ∧
  s.pcs.countP isHolder ≤ conc ∧
  s.wg = s.pcs.countP notDone ∧
  s.results.Perm (pastResults s.pcs rs) ∧
  (s.returned = true → s.wg = 0)

theorem BInv_init (conc : Nat) (rs : List Result) : BInv conc rs (initState rs) := by
  refine ⟨by simp [initState], ?_, ?_, ?_, ?_⟩
  · simp [initState, countP_replicate, isHolder]
  · simp [initState, countP_replicate, notDone]
  · simp [initState, pastResults_replicate_start]
  · simp [initState]

theorem BInv_step {conc : Nat} {rs : List Result} {s s' : BState}
    (hinv : BInv conc rs s) (hstep : BStep conc rs s s') : BInv conc rs s' := by
  obtain ⟨hlen, hsem, hwg, hres, hret⟩ := hinv
  cases hstep with
  | acquire i hpc hsemlt =>
    have hch := countP_set isHolder s.pcs i Pc.start Pc.pulling hpc
    have hcn := countP_set notDone s.pcs i Pc.start Pc.pulling hpc
    simp [isHolder] at hch
    simp [notDone] at hcn
    refine ⟨by simp [hlen], by dsimp only; omega, by simpa [hcn] using hwg, ?_, hret⟩
    rw [pastResults_set_eq s.pcs rs i Pc.start Pc.pulling hpc rfl]
    exact hres
  | finish i hpc =>
    have hch := countP_set isHolder s.pcs i Pc.pulling Pc.appended hpc
    have hcn := countP_set notDone s.pcs i Pc.pulling Pc.appended hpc
    simp [isHolder] at hch
    simp [notDone] at hcn
    have hins := pastResults_set_insert s.pcs rs i Pc.pulling Pc.appended hpc rfl rfl hlen
    refine ⟨by simp [hlen], by dsimp only; omega, by simpa [hcn] using hwg, ?_, hret⟩
    exact ((List.perm_append_singleton _ _).trans (hres.cons _)).trans hins.symm
  | release i hpc =>
    have hch := countP_set isHolder s.pcs i Pc.appended Pc.released hpc
    have hcn := countP_set notDone s.pcs i Pc.appended Pc.released hpc
    simp [isHolder] at hch
    simp [notDone] at hcn
    refine ⟨by simp [hlen], by dsimp only; omega, by simpa [hcn] using hwg, ?_, hret⟩
    rw [pastResults_set_eq s.pcs rs i Pc.appended Pc.released hpc rfl]
    exact hres
  | wgDone i hpc =>
    have hch := countP_set isHolder s.pcs i Pc.released Pc.done hpc
    have hcn := countP_set notDone s.pcs i Pc.released Pc.done hpc
    simp [isHolder] at hch
    simp [notDone] at hcn
    have hpos := countP_pos_of_mem notDone s.pcs i Pc.released hpc rfl
    refine ⟨by simp [hlen], by dsimp only; omega, by dsimp only; omega, ?_, ?_⟩
    · rw [pastResults_set_eq s.pcs rs i Pc.released Pc.done hpc rfl]
      exact hres
    · intro hr
      have := hret hr
      omega
  | ret hwg0 hret0 =>
    exact ⟨hlen, hsem, hwg, hres, fun _ => hwg0⟩

theorem Reachable_inv {conc : Nat} {rs : List Result} {s : BState}
    (h : Reachable conc rs s) : BInv conc rs s := by
  induction h with
  | init => exact BInv_init conc rs
  | step _ hs ih => exact BInv_step ih hs

/-- C1: whenever the join barrier (`wg.Wait()`) of the Concurrent
Benchmark Runner has returned, every worker has fully completed (no
partial results), and the collected results are exactly one `Result` per
input image — a permutation of the per-image results `rs`, whatever mix
of successes and failures `rs` contains. -/
theorem benchmark_join_complete (conc : Nat) (rs : List Result) (s : BState)
    (hr : Reachable conc rs s) (hret : s.returned = true) :
    (∀ pc ∈ s.pcs, pc = Pc.done) ∧ s.results.Perm rs := by
  obtain ⟨hlen, _, hwg, hres, hz⟩ := Reachable_inv hr
  have hwg0 : s.wg = 0 := hz hret
  have hcount : s.pcs.countP notDone = 0 := by omega
  have hall : ∀ pc ∈ s.pcs, pc = Pc.done := by
    intro pc hpc
    have hnd : ¬ notDone pc = true := List.countP_eq_zero.mp hcount pc hpc
    cases pc <;> first
      | rfl
      | exact absurd rfl hnd
  have hpast : ∀ pc ∈ s.pcs, isPast pc = true := by
    intro pc hpc
    rw [hall pc hpc]
    rfl
  have hfull := pastResults_all_past s.pcs rs hpast hlen
  exact ⟨hall, hfull ▸ hres⟩

/-- The concrete result used by the runner witnesses: a successful pull
of `ubuntu:latest` as the benchmark goroutine would build it. -/
def rEx : Result := benchResult "ubuntu:latest" none none none 100 "t0" "t1" ""

/-- C1 witness: a complete run of one image at concurrency 1 — acquire,
pull and append, release, `wg.Done()`, then `wg.Wait()` returns — ends
with the single worker done and the results a permutation of the
per-image results. -/
theorem benchmark_join_complete_witness :
    (∀ pc ∈ [Pc.done], pc = Pc.done) ∧ List.Perm [rEx] [rEx] := by
  have h0 : Reachable 1 [rEx] (initState [rEx]) := Reachable.init
  have h1 : Reachable 1 [rEx] ⟨[Pc.pulling], [], 1, false⟩ :=
    h0.step (BStep.acquire _ 0 rfl (by decide))
  have h2 : Reachable 1 [rEx] ⟨[Pc.appended], [rEx], 1, false⟩ :=
    h1.step (BStep.finish _ 0 rfl)
  have h3 : Reachable 1 [rEx] ⟨[Pc.released], [rEx], 1, false⟩ :=
    h2.step (BStep.release _ 0 rfl)
  have h4 : Reachable 1 [rEx] ⟨[Pc.done], [rEx], 0, false⟩ :=
    h3.step (BStep.wgDone _ 0 rfl)
  have h5 : Reachable 1 [rEx] ⟨[Pc.done], [rEx], 0, true⟩ :=
    h4.step (BStep.ret _ rfl rfl)
  exact benchmark_join_complete 1 [rEx] ⟨[Pc.done], [rEx], 0, true⟩ h5 rfl

/-- C2: in every reachable state of the Concurrent Benchmark Runner, the
number of workers currently executing a pull never exceeds the gate
capacity `conc` (the semaphore bound also covers the window between the
append and the slot release). -/
theorem benchmark_concurrency_bound (conc : Nat) (rs : List Result) (s : BState)
    (hr : Reachable conc rs s) : s.pcs.countP isPulling ≤ conc := by
  obtain ⟨_, hsem, _, _, _⟩ := Reachable_inv hr
  have hmono : s.pcs.countP isPulling ≤ s.pcs.countP isHolder := by
    apply List.countP_mono_left
    intro pc _ hp
    cases pc <;> simp_all [isPulling, isHolder]
  omega

/-- C2 witness: a 5-image run at concurrency 2 in which two workers have
acquired the gate and are both pulling — the in-flight count is 2, within
the bound. -/
theorem benchmark_concurrency_bound_witness :
    (⟨[Pc.pulling, Pc.pulling, Pc.start, Pc.start, Pc.start], [], 5, false⟩ :
      BState).pcs.countP isPulling ≤ 2 := by
  have h0 : Reachable 2 (List.replicate 5 rEx) (initState (List.replicate 5 rEx)) :=
    Reachable.init
  have h1 : Reachable 2 (List.replicate 5 rEx)
      ⟨[Pc.pulling, Pc.start, Pc.start, Pc.start, Pc.start], [], 5, false⟩ :=
    h0.step (BStep.acquire _ 0 rfl (by decide))
  have h2 : Reachable 2 (List.replicate 5 rEx)
      ⟨[Pc.pulling, Pc.pulling, Pc.start, Pc.start, Pc.start], [], 5, false⟩ :=
    h1.step (BStep.acquire _ 1 rfl (by decide))
  exact benchmark_concurrency_bound 2 (List.replicate 5 rEx) _ h2

/-- C5 (code evaluation): `benchmarkCmd` performs NO up-front validation
of `concurrency <= 0`.  With a zero-capacity gate the workers are
dispatched and then block forever on slot acquisition: every reachable
state is the initial all-dispatched state — no pull starts, nothing is
appended, and the barrier never returns (deadlock), instead of the
claimed configuration error before dispatch. -/
theorem benchmark_conc_zero_deadlock (rs : List Result) (s : BState)
    (hne : rs ≠ []) (hr : Reachable 0 rs s) : s = initState rs := by
  induction hr with
  | init => rfl
  | @step t t' _ hstep ih =>
    subst ih
    cases hstep with
    | acquire i hpc hsemlt => exact absurd hsemlt (Nat.not_lt_zero _)
    | finish i hpc =>
      have hmem : Pc.pulling ∈ (initState rs).pcs := List.getElem?_mem hpc
      have := List.eq_of_mem_replicate hmem
      simp at this
    | release i hpc =>
      have hmem : Pc.appended ∈ (initState rs).pcs := List.getElem?_mem hpc
      have := List.eq_of_mem_replicate hmem
      simp at this
    | wgDone i hpc =>
      have hmem : Pc.released ∈ (initState rs).pcs := List.getElem?_mem hpc
      have := List.eq_of_mem_replicate hmem
      simp at this
    | ret hwg0 hret0 =>
      have : rs.length = 0 := hwg0
      exact absurd (List.length_eq_zero.mp this) hne

/-- C5 witness: with one image and concurrency 0 the theorem applies to
the (reachable) initial state, pinning it in place. -/
theorem benchmark_conc_zero_deadlock_witness :
    initState [rEx] = initState [rEx] :=
  benchmark_conc_zero_deadlock [rEx] (initState [rEx])
    (List.cons_ne_nil rEx []) Reachable.init
